import Mathlib

/-!
Verification of the deck/shuffle logic of the word-flip-game app
(`src/App.jsx`), via a shallow embedding in Lean.

Modelling conventions:
* JavaScript 32-bit integer arithmetic is embedded as `Nat` arithmetic on the
  unsigned 32-bit bit pattern (values in `[0, 2^32)`): `| 0` / `>>> 0` keep the
  pattern, `Math.imul x y` is `x * y % 2^32`, `x + y` followed by a bitwise op
  is `(x + y) % 2^32`, and `^`, `|`, `>>>` are `Nat` xor, or, shiftRight.
* The float returned by the generator is `r / 2^32` for a numerator
  `r < 2^32`; `Math.floor(rnd() * b)` is then exactly `r * b / 2^32` in `Nat`
  division, so the generator is carried around as its numerator stream.
* The two `useRef` cells `usedRef` / `queueRef` become an explicit `Deck`
  record threaded through `dealNext`.
* `computeSeed` mixes `Math.random()` entropy, so reset seeds are modelled by
  an oracle `seeds : Nat → Nat` consulted at an incrementing index.
* `fetch`/`res.json()` are modelled by a `FetchResponse` record carrying the
  status flag/code and the parse result of the body; `loadDict` returns
  `Except String DictData`, with `.error` standing for a thrown `Error`.
-/

/-- One call of the closure returned by `mulberry32`: maps the internal state
`a` to the output numerator (the returned float is `out / 2^32`) and the next
state. Taken line by line from `mulberry32` in `src/App.jsx`. -/
def mulberryNext (a : Nat) : Nat × Nat :=
  let a' := (a + 0x6d2b79f5) % 2 ^ 32
  let t := ((a' ^^^ (a' >>> 15)) * (a' ||| 1)) % 2 ^ 32
  let u := ((t ^^^ (t >>> 7)) * (t ||| 61)) % 2 ^ 32
  let t2 := ((t + u) % 2 ^ 32) ^^^ t
  (t2 ^^^ (t2 >>> 14), a')

/-- `mulberry32(seed)`: the initial generator state (`seed >>> 0`). -/
def mulberry32 (seed : Nat) : Nat := seed % 2 ^ 32

/-- Advance the mulberry32 state by one call, discarding the output. -/
def mulberryStep (a : Nat) : Nat := (mulberryNext a).2

/-- The `n`-th output numerator of the generator seeded with `seed`
(`n = 0` is the first call's output). -/
def mulberrySeq (seed : Nat) (n : Nat) : Nat :=
  (mulberryNext (mulberryStep^[n] (mulberry32 seed))).1

/-- The output numerator of `mulberryNext`, as the rational value the JS
closure actually returns: `out / 4294967296`. -/
def mulberryFloat (a : Nat) : ℚ :=
  ((mulberryNext a).1 : ℚ) / 4294967296

/-- `Math.floor(rnd() * bound)` where `rnd()` returned `r / 2^32`:
exact as `Nat` division. -/
def jIndex (r : Nat) (bound : Nat) : Nat := r * bound / 4294967296

/-- `[a[i], a[j]] = [a[j], a[i]]`: swap two positions of a list; out-of-range
indices leave the list unchanged (never hit by `shuffle`'s in-range loop). -/
def listSwap (l : List α) (i j : Nat) : List α :=
  match l.get? i, l.get? j with
  | some x, some y => (l.set i y).set j x
  | _, _ => l

/-- The loop of `shuffle`, counting the index `i` down; the first argument is
the current value of `i`. Each iteration draws once from the source `next`,
picks `j = Math.floor(rnd() * (i + 1))` and swaps positions `i` and `j`. -/
def shuffleAux (next : σ → Nat × σ) : Nat → List α → σ → List α × σ
  | 0, a, g => (a, g)
  | k + 1, a, g =>
    let p := next g
    shuffleAux next k (listSwap a (k + 1) (jIndex p.1 (k + 2))) p.2

/-- `shuffle(arr, rnd)` from `src/App.jsx`: Fisher-Yates over a copy of
`arr`, iterating `i` from `arr.length - 1` down to `1`. Also returns the
final state of the random source. -/
def shuffle (arr : List α) (next : σ → Nat × σ) (g : σ) : List α × σ :=
  shuffleAux next (arr.length - 1) arr g

/-- A heap of arrays, to state the frame property of `shuffle`: the JS
function receives a reference `r` into `store`, copies the array
(`const a = [...arr]`), shuffles the copy and appends it as a fresh
reference, which it returns along with the final source state. -/
def shuffleStore (store : List (List α)) (r : Nat) (next : σ → Nat × σ)
    (g : σ) : List (List α) × Nat × σ :=
  let a := store.getD r []
  let p := shuffle a next g
  (store ++ [p.1], store.length, p.2)

/-! ### The dictionary loader -/

/-- The JSON values a loaded dictionary file can contain. JS numbers are
embedded as integers (no claim depends on non-integer numerics). -/
inductive Json where
  | null : Json
  | bool (b : Bool) : Json
  | num (n : Int) : Json
  | str (s : String) : Json
  | arr (elems : List Json) : Json
  | obj (fields : List (String × Json)) : Json

/-- Property access `j?.f`: `some` the field of an object, `none` otherwise. -/
def jsonField : Json → String → Option Json
  | .obj fields, name => List.lookup name fields
  | _, _ => none

mutual

/-- JS `String(w)` coercion of a JSON value. -/
def jsonToString : Json → String
  | .null => "null"
  | .bool true => "true"
  | .bool false => "false"
  | .num n => toString n
  | .str s => s
  | .arr l => String.intercalate "," (jsonToStringList l)
  | .obj _ => "[object Object]"

/-- `String` coercion mapped over a list of JSON values. -/
def jsonToStringList : List Json → List String
  | [] => []
  | j :: js => jsonToString j :: jsonToStringList js

end

/-- Remove trailing whitespace from a character list. -/
def dropTrailingWs : List Char → List Char
  | [] => []
  | c :: t =>
    let t' := dropTrailingWs t
    if t' = [] then (if c.isWhitespace then [] else [c]) else c :: t'

/-- `String.prototype.trim`: strip leading and trailing whitespace. -/
def jsTrimList (l : List Char) : List Char :=
  dropTrailingWs (l.dropWhile Char.isWhitespace)

/-- `w.trim()` on a string. -/
def jsTrim (s : String) : String := ⟨jsTrimList s.data⟩

/-- `Array.isArray(json?.words) ? json.words : []`. -/
def jsonWords (j : Json) : List Json :=
  match jsonField j "words" with
  | some (.arr l) => l
  | _ => []

/-- `typeof json?.name === "string" ? json.name : "词库"`. -/
def jsonName (j : Json) : String :=
  match jsonField j "name" with
  | some (.str s) => s
  | _ => "词库"

/-- The `cleaned` list of `loadDict`: each entry coerced to a string and
trimmed, then empty strings filtered out. -/
def cleanWords (j : Json) : List String :=
  ((jsonWords j).map fun w => jsTrim (jsonToString w)).filter
    fun w => decide (0 < w.length)

/-- The successful result of `loadDict`. -/
structure DictData where
  name : String
  words : List String
deriving DecidableEq

/-- What `loadDict` observes of `fetch(url)`: the `ok` flag, the numeric
`status`, and the outcome of `res.json()` (an `Except` since parsing the body
can itself throw). -/
structure FetchResponse where
  ok : Bool
  status : Nat
  body : Except String Json

/-- `loadDict(url)` from `src/App.jsx`. `.error` models a thrown `Error`
carrying the message string. -/
def loadDict (url : String) (res : FetchResponse) : Except String DictData :=
  if !res.ok then
    .error ("加载失败：" ++ url ++ "（" ++ toString res.status ++ "）")
  else
    match res.body with
    | .error e => .error e
    | .ok j =>
      let cleaned := cleanWords j
      if cleaned.isEmpty then .error ("词库为空：" ++ url)
      else .ok ⟨jsonName j, cleaned⟩

/-! ### The deck manager -/

/-- The two mutable refs of the deck manager: `usedRef` (insertion-ordered
set of dealt words, most recent first) and `queueRef`. -/
structure Deck where
  used : List String
  queue : List String
deriving DecidableEq

/-- `resetDeck()`: clear the used set and refill the queue with a fresh
mulberry32-shuffle of the word list under the given seed. -/
def resetDeck (words : List String) (seed : Nat) : Deck :=
  ⟨[], (shuffle words mulberryNext (mulberry32 seed)).1⟩

/-- The `while` loop of `dealNext`: shift words off the queue until one is
not in the used set; return that word (if any) and the remaining queue. -/
def findUnused : List String → List String → Option String × List String
  | [], _ => (none, [])
  | w :: q, used => if w ∈ used then findUnused q used else (some w, q)

/-- `dealNext()` with explicit recursion fuel (the JS function is directly
recursive in its deck-exhausted branch). Arguments after the seed oracle:
fuel, current deck, next seed-oracle index. Returns the dealt word (`none`
when the word list is empty), the new deck and the new oracle index. -/
def dealNextF (words : List String) (seeds : Nat → Nat) :
    Nat → Deck → Nat → Option String × Deck × Nat
  | 0, st, k => (none, st, k)
  | fuel + 1, st, k =>
    if words.isEmpty then (none, st, k)
    else
      let p := if st.queue.isEmpty then (resetDeck words (seeds k), k + 1)
               else (st, k)
      match findUnused p.1.queue p.1.used with
      | (some w, q) => (some w, ⟨w :: p.1.used, q⟩, p.2)
      | (none, _) =>
        dealNextF words seeds fuel (resetDeck words (seeds p.2)) (p.2 + 1)

/-- `dealNext()`: fuel `2` suffices (proved below as the termination claim). -/
def dealNext (words : List String) (seeds : Nat → Nat) (st : Deck) (k : Nat) :
    Option String × Deck × Nat :=
  dealNextF words seeds 2 st k

/-- Make `n` successive calls to `dealNext`, collecting the dealt words. -/
def runDeals (words : List String) (seeds : Nat → Nat) :
    Nat → Deck → Nat → List (Option String) × Deck × Nat
  | 0, st, k => ([], st, k)
  | n + 1, st, k =>
    let r := dealNext words seeds st k
    let rest := runDeals words seeds n r.2.1 r.2.2
    (r.1 :: rest.1, rest.2.1, rest.2.2)

/-! ### Permutation lemmas for `listSwap` and `shuffle` -/

theorem cons_set_perm (t : List α) (k : Nat) (x y : α) (h : t.get? k = some y) :
    (y :: t.set k x).Perm (x :: t) := by
  induction t generalizing k with
  | nil => simp [List.get?] at h
  | cons z t ih =>
    cases k with
    | zero =>
      simp only [List.get?] at h
      cases h
      simpa using List.Perm.swap x y t
    | succ k =>
      simp only [List.get?] at h
      show (y :: z :: t.set k x).Perm (x :: z :: t)
      have h1 : (y :: z :: t.set k x).Perm (z :: y :: t.set k x) :=
        List.Perm.swap z y _
      have h2 : (z :: y :: t.set k x).Perm (z :: x :: t) := (ih k h).cons z
      have h3 : (z :: x :: t).Perm (x :: z :: t) := List.Perm.swap x z t
      exact (h1.trans h2).trans h3

theorem set_set_swap_perm (l : List α) (i j : Nat) (x y : α)
    (hi : l.get? i = some x) (hj : l.get? j = some y) :
    ((l.set i y).set j x).Perm l := by
  induction l generalizing i j with
  | nil => simp [List.get?] at hi
  | cons z t ih =>
    cases i with
    | zero =>
      simp only [List.get?] at hi
      cases hi
      cases j with
      | zero =>
        simp only [List.get?] at hj
        cases hj
        simp
      | succ k =>
        simp only [List.get?] at hj
        simpa using cons_set_perm t k x y hj
    | succ m =>
      cases j with
      | zero =>
        simp only [List.get?] at hi hj
        cases hj
        simpa using cons_set_perm t m y x hi
      | succ k =>
        simp only [List.get?] at hi hj
        simpa using (ih m k hi hj).cons z

theorem listSwap_perm (l : List α) (i j : Nat) : (listSwap l i j).Perm l := by
  unfold listSwap
  cases hi : l.get? i with
  | none => exact List.Perm.refl l
  | some x =>
    cases hj : l.get? j with
    | none => exact List.Perm.refl l
    | some y => exact set_set_swap_perm l i j x y hi hj

theorem shuffleAux_perm (next : σ → Nat × σ) (k : Nat) (a : List α) (g : σ) :
    ((shuffleAux next k a g).1).Perm a := by
  induction k generalizing a g with
  | zero => exact List.Perm.refl a
  | succ k ih =>
    exact (ih _ _).trans (listSwap_perm a (k + 1) (jIndex (next g).1 (k + 2)))

theorem shuffleAux_state (next : σ → Nat × σ) (k : Nat) (a : List α) (g : σ) :
    (shuffleAux next k a g).2 = (fun s => (next s).2)^[k] g := by
  induction k generalizing a g with
  | zero => rfl
  | succ k ih =>
    rw [Function.iterate_succ_apply]
    exact ih _ _

theorem shuffle_perm (arr : List α) (next : σ → Nat × σ) (g : σ) :
    ((shuffle arr next g).1).Perm arr :=
  shuffleAux_perm next (arr.length - 1) arr g

theorem shuffle_length (arr : List α) (next : σ → Nat × σ) (g : σ) :
    (shuffle arr next g).1.length = arr.length :=
  (shuffle_perm arr next g).length_eq

theorem jIndex_le (r i : Nat) (h : r < 4294967296) : jIndex r (i + 1) ≤ i := by
  have h2 : r * (i + 1) < (i + 1) * 4294967296 := by
    rw [Nat.mul_comm (i + 1)]
    exact Nat.mul_lt_mul_of_lt_of_le h (Nat.le_refl (i + 1)) (Nat.succ_pos i)
  have h3 : r * (i + 1) / 4294967296 < i + 1 :=
    (Nat.div_lt_iff_lt_mul (by norm_num)).mpr h2
  exact Nat.lt_succ_iff.mp h3

/-- C2: `shuffle` implements Fisher-Yates: for every input array and every
random source, the output is a permutation of the input (same multiset), the
source is consumed exactly once per swap position (`length - 1` times,
iterating `i` from the last index down to `1` by definition of
`shuffleAux`), and each drawn index `j = ⌊r/2^32 · (i+1)⌋` lies in `[0, i]`. -/
theorem shuffle_fisher_yates {α σ : Type} :
    (∀ (arr : List α) (next : σ → Nat × σ) (g : σ),
      ((shuffle arr next g).1).Perm arr ∧
      (shuffle arr next g).2 = (fun s => (next s).2)^[arr.length - 1] g) ∧
    (∀ r i : Nat, r < 4294967296 → jIndex r (i + 1) ≤ i) := by
  refine ⟨fun arr next g => ⟨shuffle_perm arr next g, ?_⟩, jIndex_le⟩
  exact shuffleAux_state next (arr.length - 1) arr g

/-- Witness for C2 at a concrete array and random source. -/
theorem shuffle_fisher_yates_witness :
    (((shuffle [10, 20, 30] (fun s : Nat => (s, s + 1)) 0).1).Perm [10, 20, 30] ∧
      (shuffle [10, 20, 30] (fun s : Nat => (s, s + 1)) 0).2 =
        (fun s => ((fun s : Nat => (s, s + 1)) s).2)^[[10, 20, 30].length - 1] 0) ∧
    jIndex 7 (2 + 1) ≤ 2 :=
  ⟨(shuffle_fisher_yates (α := Nat) (σ := Nat)).1 [10, 20, 30] _ 0,
    (shuffle_fisher_yates (α := Nat) (σ := Nat)).2 7 2 (by decide)⟩

/-- C3: for a fixed 32-bit seed, `mulberry32` yields the same output sequence
on successive calls, and `shuffle` driven by it is deterministic: equal seeds
give an equal shuffled sequence (and equal final generator state). -/
theorem shuffle_deterministic (s₁ s₂ : Nat) (arr : List String) (h : s₁ = s₂) :
    (∀ n, mulberrySeq s₁ n = mulberrySeq s₂ n) ∧
    shuffle arr mulberryNext (mulberry32 s₁) =
      shuffle arr mulberryNext (mulberry32 s₂) := by
  subst h
  exact ⟨fun _ => rfl, rfl⟩

/-- Witness for C3 at a concrete seed and array. -/
theorem shuffle_deterministic_witness :
    (∀ n, mulberrySeq 7 n = mulberrySeq 7 n) ∧
    shuffle ["a", "b"] mulberryNext (mulberry32 7) =
      shuffle ["a", "b"] mulberryNext (mulberry32 7) :=
  shuffle_deterministic 7 7 ["a", "b"] rfl

/-- C7: `shuffle` does not mutate its input array: in the store model it
reads the array at reference `r`, works on a copy, and every pre-existing
reference (in particular the input) maps to an unchanged array afterwards. -/
theorem shuffle_no_mutation {α σ : Type} (store : List (List α)) (r i : Nat)
    (next : σ → Nat × σ) (g : σ) (h : i < store.length) :
    ((shuffleStore store r next g).1).get? i = store.get? i :=
  List.get?_append h

/-- Witness for C7 at a concrete store. -/
theorem shuffle_no_mutation_witness :
    ((shuffleStore [[1, 2, 3]] 0 (fun s : Nat => (s, s + 1)) 0).1).get? 0 =
      [[1, 2, 3]].get? 0 :=
  shuffle_no_mutation [[1, 2, 3]] 0 0 (fun s : Nat => (s, s + 1)) 0 (by decide)

/-! ### Range of the generator output -/

theorem mulberryNext_fst_lt (a : Nat) : (mulberryNext a).1 < 2 ^ 32 := by
  have key : ∀ x y : Nat, x < 2 ^ 32 → y < 2 ^ 32 → x ^^^ y < 2 ^ 32 :=
    fun _ _ hx hy => Nat.xor_lt_two_pow hx hy
  have hmod : ∀ x : Nat, x % 2 ^ 32 < 2 ^ 32 := fun x => Nat.mod_lt _ (by norm_num)
  have hsh : ∀ x n : Nat, x < 2 ^ 32 → x >>> n < 2 ^ 32 := fun x n hx =>
    Nat.lt_of_le_of_lt
      (by rw [Nat.shiftRight_eq_div_pow]; exact Nat.div_le_self _ _) hx
  simp only [mulberryNext]
  exact key _ _ (key _ _ (hmod _) (hmod _)) (hsh _ _ (key _ _ (hmod _) (hmod _)))

/-- C8: every value the seeded generator produces is a 32-bit unsigned
integer divided by `2^32`, hence lies in `[0, 1)`: for every seed and every
call index `n`, the numerator is below `2^32` and the returned rational is
`≥ 0` and `< 1`. -/
theorem mulberry_output_range (seed n : Nat) :
    mulberrySeq seed n < 2 ^ 32 ∧
    0 ≤ mulberryFloat (mulberryStep^[n] (mulberry32 seed)) ∧
    mulberryFloat (mulberryStep^[n] (mulberry32 seed)) < 1 := by
  refine ⟨mulberryNext_fst_lt _, div_nonneg (Nat.cast_nonneg _) (by norm_num), ?_⟩
  unfold mulberryFloat
  rw [div_lt_one (by norm_num)]
  have h := mulberryNext_fst_lt (mulberryStep^[n] (mulberry32 seed))
  exact_mod_cast Nat.lt_of_lt_of_le h (by norm_num)

/-! ### Deck lemmas -/

theorem findUnused_of_not_mem (w : String) (q used : List String)
    (h : w ∉ used) : findUnused (w :: q) used = (some w, q) := by
  simp [findUnused, h]

theorem findUnused_all_used (q used : List String) (h : ∀ w ∈ q, w ∈ used) :
    findUnused q used = (none, []) := by
  induction q with
  | nil => rfl
  | cons w q ih =>
    have hw : w ∈ used := h w (List.mem_cons_self w q)
    simp only [findUnused, if_pos hw]
    exact ih fun x hx => h x (List.mem_cons_of_mem w hx)

theorem resetDeck_queue_perm (words : List String) (s : Nat) :
    ((resetDeck words s).queue).Perm words :=
  shuffle_perm words mulberryNext (mulberry32 s)

theorem resetDeck_queue_ne_nil (words : List String) (s : Nat)
    (h : words ≠ []) : (resetDeck words s).queue ≠ [] := by
  intro h0
  apply h
  apply List.length_eq_zero.mp
  rw [← (resetDeck_queue_perm words s).length_eq]
  exact congrArg List.length h0

/-- Unfold one step of the fuelled `dealNext`. -/
theorem dealNextF_succ (words : List String) (seeds : Nat → Nat) (fuel : Nat)
    (st : Deck) (k : Nat) :
    dealNextF words seeds (fuel + 1) st k =
      if words.isEmpty then (none, st, k)
      else
        let p := if st.queue.isEmpty then (resetDeck words (seeds k), k + 1)
                 else (st, k)
        match findUnused p.1.queue p.1.used with
        | (some w, q) => (some w, ⟨w :: p.1.used, q⟩, p.2)
        | (none, _) =>
          dealNextF words seeds fuel (resetDeck words (seeds p.2)) (p.2 + 1) :=
  rfl

/-- Dealing from a freshly cleaned deck with a nonempty queue succeeds at
once, whatever the fuel. -/
theorem dealNextF_clean (words : List String) (seeds : Nat → Nat)
    (hw : words.isEmpty = false) (fuel : Nat) (w : String) (q : List String)
    (k : Nat) :
    dealNextF words seeds (fuel + 1) ⟨[], w :: q⟩ k = (some w, ⟨[w], q⟩, k) := by
  rw [dealNextF_succ]
  simp [hw, findUnused]

theorem dealNext_deal_step (words : List String) (seeds : Nat → Nat)
    (used : List String) (w : String) (q : List String) (k : Nat)
    (hw : words.isEmpty = false) (hno : w ∉ used) :
    dealNext words seeds ⟨used, w :: q⟩ k = (some w, ⟨w :: used, q⟩, k) := by
  rw [dealNext, dealNextF_succ]
  simp [hw, findUnused_of_not_mem w q used hno]

/-- Auxiliary step for the termination claim: once the deck has been reset,
one more unit of fuel always suffices. -/
theorem dealNextF_reset_indep (words : List String) (seeds : Nat → Nat)
    (hw : words.isEmpty = false) (s : Nat) (fuel k : Nat) :
    dealNextF words seeds (fuel + 1) (resetDeck words s) k =
      dealNextF words seeds 1 (resetDeck words s) k := by
  have hne : words ≠ [] := fun h => by simp [h] at hw
  obtain ⟨w, q, hwq⟩ :=
    List.exists_cons_of_ne_nil (resetDeck_queue_ne_nil words s hne)
  have hst : resetDeck words s = ⟨[], w :: q⟩ := by
    rw [show resetDeck words s = ⟨[], (resetDeck words s).queue⟩ from rfl, hwq]
  rw [hst, dealNextF_clean words seeds hw fuel w q k,
    dealNextF_clean words seeds hw 0 w q k]

/-- C9: `dealNext` always terminates: with an empty word list it returns
immediately, and otherwise the deck-exhausted branch recurses at most once,
because after a reset the queue is a nonempty permutation of the word list
and the used set is empty; hence recursion fuel `2` computes the same result
as any larger amount. -/
theorem dealNext_terminates (words : List String) (seeds : Nat → Nat)
    (n : Nat) (st : Deck) (k : Nat) :
    dealNextF words seeds (n + 2) st k = dealNext words seeds st k ∧
    (words = [] → dealNext words seeds st k = (none, st, k)) := by
  constructor
  · rw [dealNext]
    cases hw : words.isEmpty with
    | true =>
      rw [dealNextF_succ, dealNextF_succ]
      simp [hw]
    | false =>
      rw [show n + 2 = (n + 1) + 1 from rfl, dealNextF_succ, dealNextF_succ]
      simp only [hw, Bool.false_eq_true, if_false]
      cases hq : st.queue.isEmpty with
      | true =>
        have hne : words ≠ [] := fun h => by simp [h] at hw
        obtain ⟨w, q, hwq⟩ :=
          List.exists_cons_of_ne_nil (resetDeck_queue_ne_nil words (seeds k) hne)
        simp only [hq, if_true]
        rw [hwq, show (resetDeck words (seeds k)).used = [] from rfl,
          findUnused_of_not_mem w q [] (List.not_mem_nil w)]
      | false =>
        simp only [hq, Bool.false_eq_true, if_false]
        cases hfu : findUnused st.queue st.used with
        | mk next rest =>
          cases next with
          | some w => rfl
          | none => exact dealNextF_reset_indep words seeds hw (seeds k) n (k + 1)
  · intro h
    subst h
    rfl

/-- Witness for C9 at concrete fuel, deck and word list. -/
theorem dealNext_terminates_witness :
    (dealNextF ["a"] (fun _ => 0) (5 + 2) ⟨["a"], []⟩ 0 =
      dealNext ["a"] (fun _ => 0) ⟨["a"], []⟩ 0) ∧
    ([] = ([] : List String) → dealNext [] (fun _ => 0) ⟨["a"], []⟩ 0 =
      (none, ⟨["a"], []⟩, 0)) :=
  ⟨(dealNext_terminates ["a"] (fun _ => 0) 5 ⟨["a"], []⟩ 0).1,
    (dealNext_terminates [] (fun _ => 0) 5 ⟨["a"], []⟩ 0).2⟩

theorem filterMap_id_map_some (l : List α) : (l.map some).filterMap id = l := by
  induction l with
  | nil => rfl
  | cons x t ih => simp [ih]

/-- A clean cycle: while the queue is duplicate-free and disjoint from the
used set, each call deals the queue head, so consuming the whole queue deals
its words in order and records them all as used. -/
theorem runDeals_cycle (words : List String) (seeds : Nat → Nat)
    (hw : words.isEmpty = false) :
    ∀ (q used : List String) (k : Nat), q.Nodup → (∀ x ∈ q, x ∉ used) →
      runDeals words seeds q.length ⟨used, q⟩ k =
        (q.map some, ⟨q.reverse ++ used, []⟩, k) := by
  intro q
  induction q with
  | nil =>
    intro used k _ _
    simp [runDeals]
  | cons w q ih =>
    intro used k hnd hdisj
    have hstep := dealNext_deal_step words seeds used w q k hw
      (hdisj w (List.mem_cons_self w q))
    have hnd' := List.nodup_cons.mp hnd
    have hdisj' : ∀ x ∈ q, x ∉ w :: used := by
      intro x hx
      rw [List.mem_cons]
      rintro (rfl | hmem)
      · exact hnd'.1 hx
      · exact hdisj x (List.mem_cons_of_mem w hx) hmem
    rw [show (w :: q).length = q.length + 1 from rfl]
    rw [runDeals, hstep]
    rw [ih (w :: used) k hnd'.2 hdisj']
    simp [List.reverse_cons, List.append_assoc]

/-- C1 (amended): starting from a freshly reset deck over a word list with
no duplicate entries, `words.length` calls to `dealNext` deal every word of
the list exactly once, and the used set afterwards contains exactly the
words of the list. -/
theorem full_cycle_deals_all (words : List String) (s0 : Nat)
    (seeds : Nat → Nat) (k : Nat) (hnd : words.Nodup) :
    (∀ w ∈ words,
      ((runDeals words seeds words.length (resetDeck words s0) k).1.filterMap
        id).count w = 1) ∧
    (∀ w,
      w ∈ (runDeals words seeds words.length (resetDeck words s0) k).2.1.used ↔
        w ∈ words) := by
  cases hw : words.isEmpty with
  | true =>
    have h : words = [] := List.isEmpty_iff.mp hw
    subst h
    constructor
    · intro w hmem
      exact absurd hmem (List.not_mem_nil w)
    · intro w
      simp [runDeals, resetDeck, shuffle, shuffleAux]
  | false =>
    have hperm : ((resetDeck words s0).queue).Perm words :=
      resetDeck_queue_perm words s0
    have hlen : words.length = (resetDeck words s0).queue.length :=
      hperm.length_eq.symm
    have hnd' : (resetDeck words s0).queue.Nodup := hperm.nodup_iff.mpr hnd
    have hdisj : ∀ x ∈ (resetDeck words s0).queue, x ∉ ([] : List String) :=
      fun x _ => List.not_mem_nil x
    have hrun := runDeals_cycle words seeds hw (resetDeck words s0).queue [] k
      hnd' hdisj
    rw [show resetDeck words s0 = ⟨[], (resetDeck words s0).queue⟩ from rfl,
      hlen, show (⟨[], (resetDeck words s0).queue⟩ : Deck).queue =
        (resetDeck words s0).queue from rfl, hrun]
    constructor
    · intro w hmem
      rw [filterMap_id_map_some]
      rw [hperm.count_eq w]
      exact List.count_eq_one_of_mem hnd hmem
    · intro w
      rw [show (⟨(resetDeck words s0).queue.reverse ++ [], []⟩ : Deck).used =
        (resetDeck words s0).queue.reverse ++ [] from rfl, List.append_nil,
        List.mem_reverse]
      exact hperm.mem_iff

/-- Witness for C1 (amended) at a concrete duplicate-free word list. -/
theorem full_cycle_deals_all_witness :
    (∀ w ∈ ["a", "b"],
      ((runDeals ["a", "b"] (fun _ => 0) ["a", "b"].length
        (resetDeck ["a", "b"] 0) 0).1.filterMap id).count w = 1) ∧
    (∀ w,
      w ∈ (runDeals ["a", "b"] (fun _ => 0) ["a", "b"].length
        (resetDeck ["a", "b"] 0) 0).2.1.used ↔ w ∈ ["a", "b"]) :=
  full_cycle_deals_all ["a", "b"] 0 (fun _ => 0) 0 (by decide)

/-- Counterexample to C1 as stated: with the loadable (duplicates are not
removed) word list `["a", "a", "b"]` of length `3`, three calls to `dealNext`
from a freshly reset deck do not deal every word exactly once, and the used
set afterwards is not the full word set: the duplicate forces a mid-cycle
reset that clears the used set. -/
theorem full_cycle_counterexample :
    ¬ ((∀ w ∈ ["a", "a", "b"],
        ((runDeals ["a", "a", "b"] (fun _ => 0) ["a", "a", "b"].length
          (resetDeck ["a", "a", "b"] 0) 0).1.filterMap id).count w = 1) ∧
      (∀ w ∈ ["a", "a", "b"],
        w ∈ (runDeals ["a", "a", "b"] (fun _ => 0) ["a", "a", "b"].length
          (resetDeck ["a", "a", "b"] 0) 0).2.1.used)) := by
  intro h
  exact absurd (h.2 "b" (by decide)) (by decide)

/-- C4: with a nonempty word list, calling `dealNext` when the used set
already contains every word (and the queue holds only words of the list)
resets the deck and deals a word of the list from the new cycle — the call
returns a word rather than failing, and the used set restarts at exactly
that word. -/
theorem dealNext_after_exhaustion (words used queue : List String)
    (seeds : Nat → Nat) (k : Nat) (hne : words ≠ [])
    (hfull : ∀ w ∈ words, w ∈ used) (hsub : ∀ w ∈ queue, w ∈ words) :
    ∃ w' q' k', dealNext words seeds ⟨used, queue⟩ k = (some w', ⟨[w'], q'⟩, k') ∧
      w' ∈ words := by
  have hw : words.isEmpty = false := by
    cases hwe : words.isEmpty with
    | true => exact absurd (List.isEmpty_iff.mp hwe) hne
    | false => rfl
  cases queue with
  | nil =>
    obtain ⟨w, q, hwq⟩ :=
      List.exists_cons_of_ne_nil (resetDeck_queue_ne_nil words (seeds k) hne)
    have hwmem : w ∈ words := by
      rw [← (resetDeck_queue_perm words (seeds k)).mem_iff, hwq]
      exact List.mem_cons_self w q
    refine ⟨w, q, k + 1, ?_, hwmem⟩
    rw [dealNext, dealNextF_succ]
    simp only [hw, Bool.false_eq_true, if_false, List.isEmpty_nil, if_true]
    rw [hwq, show (resetDeck words (seeds k)).used = [] from rfl,
      findUnused_of_not_mem w q [] (List.not_mem_nil w)]
  | cons c rest =>
    have hdrain : findUnused (c :: rest) used = (none, []) :=
      findUnused_all_used (c :: rest) used fun x hx => hfull x (hsub x hx)
    obtain ⟨w, q, hwq⟩ :=
      List.exists_cons_of_ne_nil (resetDeck_queue_ne_nil words (seeds k) hne)
    have hwmem : w ∈ words := by
      rw [← (resetDeck_queue_perm words (seeds k)).mem_iff, hwq]
      exact List.mem_cons_self w q
    refine ⟨w, q, k + 1, ?_, hwmem⟩
    rw [dealNext, dealNextF_succ]
    simp only [hw, Bool.false_eq_true, if_false, List.isEmpty_cons]
    rw [hdrain]
    have hst : resetDeck words (seeds k) = ⟨[], w :: q⟩ := by
      rw [show resetDeck words (seeds k) = ⟨[], (resetDeck words (seeds k)).queue⟩
        from rfl, hwq]
    rw [hst, dealNextF_clean words seeds hw 0 w q (k + 1)]

/-- Witness for C4 at a concrete exhausted deck. -/
theorem dealNext_after_exhaustion_witness :
    ∃ w' q' k', dealNext ["a"] (fun _ => 0) ⟨["a"], []⟩ 0 =
      (some w', ⟨[w'], q'⟩, k') ∧ w' ∈ ["a"] :=
  dealNext_after_exhaustion ["a"] ["a"] [] (fun _ => 0) 0 (by decide)
    (by decide) (by decide)

/-! ### Trimming lemmas -/

theorem dropWhile_head_false (p : Char → Bool) (l : List Char) :
    l.dropWhile p = [] ∨ ∃ c t, l.dropWhile p = c :: t ∧ p c = false := by
  induction l with
  | nil => exact Or.inl rfl
  | cons c t ih =>
    cases hc : p c with
    | true => simpa [List.dropWhile_cons, hc] using ih
    | false => exact Or.inr ⟨c, t, by simp [List.dropWhile_cons, hc], hc⟩

theorem dropTrailingWs_idem (l : List Char) :
    dropTrailingWs (dropTrailingWs l) = dropTrailingWs l := by
  induction l with
  | nil => rfl
  | cons c t ih =>
    have heq : dropTrailingWs (c :: t) =
        if dropTrailingWs t = [] then (if c.isWhitespace then [] else [c])
        else c :: dropTrailingWs t := rfl
    by_cases h : dropTrailingWs t = []
    · rw [heq, if_pos h]
      by_cases hc : c.isWhitespace
      · rw [if_pos hc]; rfl
      · rw [if_neg hc]
        simp [dropTrailingWs, hc]
    · rw [heq, if_neg h]
      have heq2 : dropTrailingWs (c :: dropTrailingWs t) =
          if dropTrailingWs (dropTrailingWs t) = []
          then (if c.isWhitespace then [] else [c])
          else c :: dropTrailingWs (dropTrailingWs t) := rfl
      rw [heq2, ih, if_neg h]

theorem dropTrailingWs_cons_cases (c : Char) (t : List Char) :
    dropTrailingWs (c :: t) = [] ∨
    ∃ t', dropTrailingWs (c :: t) = c :: t' := by
  by_cases h : dropTrailingWs t = []
  · by_cases hc : c.isWhitespace
    · exact Or.inl (by simp [dropTrailingWs, h, hc])
    · exact Or.inr ⟨[], by simp [dropTrailingWs, h, hc]⟩
  · exact Or.inr ⟨dropTrailingWs t, by simp [dropTrailingWs, h]⟩

theorem jsTrimList_idem (l : List Char) :
    jsTrimList (jsTrimList l) = jsTrimList l := by
  unfold jsTrimList
  rcases dropWhile_head_false Char.isWhitespace l with hm | ⟨c, t, hm, hc⟩
  · rw [hm]; rfl
  · rw [hm]
    rcases dropTrailingWs_cons_cases c t with h0 | ⟨t', h1⟩
    · rw [h0]; rfl
    · rw [h1, List.dropWhile_cons, if_neg (by simp [hc]), ← h1,
        dropTrailingWs_idem]

theorem jsTrim_idem (s : String) : jsTrim (jsTrim s) = jsTrim s :=
  congrArg String.mk (jsTrimList_idem s.data)

/-! ### Dictionary-loading claims -/

/-- C5: with a successful fetch whose JSON `words` field is the empty array
(or is not an array at all), `loadDict` fails with the descriptive
empty-dictionary error instead of returning a word list. -/
theorem loadDict_empty_words (url : String) (st : Nat) (j : Json)
    (h : jsonField j "words" = some (.arr []) ∨
      ∀ l, jsonField j "words" ≠ some (.arr l)) :
    loadDict url ⟨true, st, .ok j⟩ = .error ("词库为空：" ++ url) := by
  have hw : jsonWords j = [] := by
    rcases h with h | h
    · simp [jsonWords, h]
    · unfold jsonWords
      cases hf : jsonField j "words" with
      | none => rfl
      | some v =>
        cases v with
        | null => rfl
        | bool b => rfl
        | num n => rfl
        | str s => rfl
        | arr l => exact absurd hf (h l)
        | obj fields => rfl
  have hc : cleanWords j = [] := by rw [cleanWords, hw]; rfl
  simp [loadDict, hc]

/-- Witness for C5 at a concrete response with an empty `words` array. -/
theorem loadDict_empty_words_witness :
    loadDict "u" ⟨true, 200, .ok (.obj [("words", .arr [])])⟩ =
      .error ("词库为空：" ++ "u") :=
  loadDict_empty_words "u" 200 (.obj [("words", .arr [])]) (Or.inl rfl)

/-- C6: when the fetch response has a non-success status, `loadDict` fails
with the load error whose message contains the numeric status code, and the
result does not depend on the response body — the body is never parsed. -/
theorem loadDict_bad_status (url : String) (res : FetchResponse)
    (h : res.ok = false) :
    loadDict url res =
      .error ("加载失败：" ++ url ++ "（" ++ toString res.status ++ "）") ∧
    (∃ pre post,
      "加载失败：" ++ url ++ "（" ++ toString res.status ++ "）" =
        pre ++ toString res.status ++ post) ∧
    ∀ body', loadDict url ⟨res.ok, res.status, body'⟩ = loadDict url res := by
  refine ⟨by simp [loadDict, h], ⟨"加载失败：" ++ url ++ "（", "）", rfl⟩, ?_⟩
  intro body'
  simp [loadDict, h]

/-- Witness for C6 at a concrete 404 response. -/
theorem loadDict_bad_status_witness :
    loadDict "u" ⟨false, 404, .ok .null⟩ =
      .error ("加载失败：" ++ "u" ++ "（" ++ toString 404 ++ "）") ∧
    (∃ pre post,
      "加载失败：" ++ "u" ++ "（" ++ toString 404 ++ "）" =
        pre ++ toString 404 ++ post) ∧
    ∀ body', loadDict "u" ⟨false, 404, body'⟩ =
      loadDict "u" ⟨false, 404, .ok .null⟩ :=
  loadDict_bad_status "u" ⟨false, 404, .ok .null⟩ rfl

/-- C10: `loadDict` normalizes the word list: on success the returned words
are exactly the entries of the `words` array coerced to strings, trimmed and
with empty results removed, so every returned word is a nonempty trimmed
string; and when every entry trims to the empty string (even if the `words`
array itself is nonempty), loading fails with the empty-dictionary error. -/
theorem loadDict_normalizes (url : String) (st : Nat) (j : Json) :
    (∀ d, loadDict url ⟨true, st, .ok j⟩ = .ok d →
      d.words = cleanWords j ∧ ∀ w ∈ d.words, w ≠ "" ∧ jsTrim w = w) ∧
    ((∀ w ∈ jsonWords j, jsTrim (jsonToString w) = "") →
      loadDict url ⟨true, st, .ok j⟩ = .error ("词库为空：" ++ url)) := by
  constructor
  · intro d hd
    simp only [loadDict, Bool.not_true] at hd
    by_cases hce : (cleanWords j).isEmpty = true
    · rw [if_neg (by simp), if_pos hce] at hd
      exact absurd hd (by simp)
    · rw [if_neg (by simp), if_neg hce] at hd
      injection hd with hd
      subst hd
      refine ⟨rfl, ?_⟩
      intro w hw
      rw [show (DictData.mk (jsonName j) (cleanWords j)).words = cleanWords j
        from rfl] at hw
      have hw' := hw
      rw [cleanWords, List.mem_filter] at hw'
      obtain ⟨hmem, hpos⟩ := hw'
      constructor
      · intro h0
        have := of_decide_eq_true hpos
        rw [h0] at this
        exact absurd this (by decide)
      · rw [List.mem_map] at hmem
        obtain ⟨a, _, ha⟩ := hmem
        rw [← ha, jsTrim_idem]
  · intro hws
    have hc : cleanWords j = [] := by
      rw [cleanWords]
      rw [List.filter_eq_nil]
      intro a ha
      rw [List.mem_map] at ha
      obtain ⟨b, hb, hba⟩ := ha
      rw [← hba, hws b hb]
      decide
    simp [loadDict, hc]

/-- Witness for C10 at a concrete dictionary with padded, blank and empty
entries. -/
theorem loadDict_normalizes_witness :
    ((DictData.mk "词库" ["ab"]).words =
      cleanWords (.obj [("words", .arr [.str " ab ", .str " ", .str ""])]) ∧
    ∀ w ∈ (DictData.mk "词库" ["ab"]).words, w ≠ "" ∧ jsTrim w = w) :=
  (loadDict_normalizes "u" 200
    (.obj [("words", .arr [.str " ab ", .str " ", .str ""])])).1
    ⟨"词库", ["ab"]⟩ (by rfl)
